import Mathlib

/-!
Verification of the branching population execution engine of this
repository: processes carrying a model value and a pending hint execute a
fixed program of instructions; an instruction may return several hints,
forking new processes that are registered with the scheduler at once; a
round driver executes every process, including forks created mid-round; a
pruner bounds the population with a ranked, stride-sampled selection.

The definitions below are a shallow embedding of src/process.py (the
engine in src/__impl/fork.py is textually the same): Python in-place
mutation becomes explicit state passing, popping the final element of the
hint list becomes getLast? and dropLast, the deep copy taken on fork
becomes a plain value copy, and the two Python integer divisions inside
Sys.prune are rendered so that a division that Python would raise
ZeroDivisionError on yields none.
-/

namespace ForkModel

open List (Sublist Perm)
open scoped List

/-- One lineage, class Process of src/process.py: the resume pointer
(field resume underscore ptr), the pending hint, and the owned model. -/
structure Process (M H : Type) where
  resumePtr : Nat
  hint : Option H
  model : M
  deriving DecidableEq

/-- The instruction type CodeLine of src/process.py.  Python mutates the
model in place and returns the hint list; here an instruction returns the
updated model paired with the returned hints. -/
def CodeLine (M H E : Type) : Type :=
  M → Option H → E → M × List H

variable {M H E S : Type}

/-- The processes built by Process.clone for all but the last returned
hint: resume pointer one past the executed line, pending hint the hint
value, model a copy of the model as it stands after the instruction. -/
def forkChildren (line : Nat) (m : M) (hints : List H) : List (Process M H) :=
  hints.dropLast.map fun hv => ⟨line + 1, some hv, m⟩

/-- The loop body of Process.execute: run the enumerated instructions in
order, threading the scheduler's process list (each fork is appended by
Sys.add underscore model immediately, before the next instruction runs),
the model, and the pending hint.  Python pops the last element of the hint
list into the pending hint, or None when the list is empty, which is
exactly getLast?. -/
def runLines (env : E) :
    List (Nat × CodeLine M H E) → List (Process M H) → M → Option H →
      List (Process M H) × M × Option H
  | [], pop, m, h => (pop, m, h)
  | (line, ins) :: rest, pop, m, h =>
    runLines env rest (pop ++ forkChildren line (ins m h env).1 (ins m h env).2)
      (ins m h env).1 (ins m h env).2.getLast?

/-- Process.execute: iterate Sys.instructions underscore from at the
resume pointer, that is the enumerated tail of the program, then reset the
resume pointer to 0.  Returns the grown process list and the finished
process. -/
def processExecute (code : List (CodeLine M H E)) (env : E)
    (pop : List (Process M H)) (p : Process M H) :
    List (Process M H) × Process M H :=
  let r := runLines env (List.enumFrom p.resumePtr (code.drop p.resumePtr)) pop p.model p.hint
  (r.1, ⟨0, r.2.2, r.2.1⟩)

/-- Sys.execute: Python iterates the process list with a list iterator,
which re-reads the current length at every step, so entries appended
during the very call are visited too.  fuel bounds the number of loop
steps; none means the bound was too small, while the Python loop would
simply continue. -/
def sysExecuteFrom (code : List (CodeLine M H E)) (env : E) :
    Nat → List (Process M H) → Nat → Option (List (Process M H))
  | 0, pop, idx => if pop.length ≤ idx then some pop else none
  | fuel + 1, pop, idx =>
    if h : idx < pop.length then
      let r := processExecute code env pop pop[idx]
      sysExecuteFrom code env fuel (r.1.set idx r.2) (idx + 1)
    else some pop

/-- One full round: Sys.execute starts its iteration at position 0. -/
def sysExecute (code : List (CodeLine M H E)) (env : E) (fuel : Nat)
    (pop : List (Process M H)) : Option (List (Process M H)) :=
  sysExecuteFrom code env fuel pop 0

/-- Worklist reading of one round: finished processes accumulate in done,
processes still to run wait in pending; a process is taken from the front
of pending, fully executed, and the forks it registered are appended after
the rest of the queue.  A result is returned only once the queue, forks
included, is drained. -/
def roundWork (code : List (CodeLine M H E)) (env : E) :
    Nat → List (Process M H) → List (Process M H) → Option (List (Process M H))
  | 0, done, pending => if pending.isEmpty then some done else none
  | _ + 1, done, [] => some done
  | fuel + 1, done, p :: rest =>
    let r := processExecute code env rest p
    roundWork code env fuel (done ++ [r.2]) r.1

/-- Helper for the Python stride slice: the counter holds how many
elements remain to skip before the next one is taken; after taking an
element, s - 1 elements are skipped. -/
def everyNthAux (s : Nat) : Nat → List α → List α
  | _, [] => []
  | 0, a :: rest => a :: everyNthAux s (s - 1) rest
  | k + 1, _ :: rest => everyNthAux s k rest

/-- Python slice x[::s] and x[n::s] for a step s of at least 1: the first
element, then every s-th element after it. -/
def everyNth (s : Nat) (l : List α) : List α :=
  everyNthAux s 0 l

/-- Insert a process into a list sorted by score descending, before the
first entry whose score is less than or equal to its own. -/
def insertDesc [LinearOrder S] (sc : M → S) (p : Process M H) :
    List (Process M H) → List (Process M H)
  | [] => [p]
  | q :: rest =>
    if sc p.model < sc q.model then q :: insertDesc sc p rest
    else p :: q :: rest

/-- The Python call list.sort with key the score and reverse set, a stable
sort by score descending, rendered as a stable insertion sort: an element
is placed after every earlier element of greater or equal score, so
equal-score entries keep their prior relative order. -/
def sortDesc [LinearOrder S] (sc : M → S) : List (Process M H) → List (Process M H)
  | [] => []
  | p :: rest => insertDesc sc p (sortDesc sc rest)

/-- The head count n of the first pruning branch of Sys.prune.  For the
reachable inputs of that branch (finalCount < n ≤ finalCount * stride,
stride at least 2) the Python expression is nonnegative and its floor
division is division of nonnegatives, so Nat subtraction and division
agree with it. -/
def keepHead (stride finalCount n : Nat) : Nat :=
  finalCount - (n - finalCount) / (stride - 1)

/-- The number of processes Sys.prune keeps when it prunes a population of
size n, finalCount < n: head count plus one element per started stride
block of the remainder in the first branch, every newStride-th element in
the second. -/
def keptCount (stride finalCount n : Nat) : Nat :=
  if n ≤ finalCount * stride then
    keepHead stride finalCount n +
      (n - keepHead stride finalCount n + (stride - 1)) / stride
  else
    (n + n / finalCount) / (n / finalCount + 1)

/-- Sys.prune.  The two Python integer divisions are kept exactly where
the source performs them: the divisor stride - 1 of the first branch is
zero at stride = 1 and the divisor finalCount of the second branch is zero
at finalCount = 0; in both cases Python raises ZeroDivisionError, rendered
here as none.  (At stride = 0 the first branch would divide by minus one
and then slice with step 0; that branch is unreachable then, since its
guard demands a positive length of at most finalCount * 0.) -/
def prune [LinearOrder S] (sc : M → S) (stride finalCount : Nat)
    (pop : List (Process M H)) : Option (List (Process M H)) :=
  if pop.length ≤ finalCount then some pop
  else
    let x := sortDesc sc pop
    if x.length ≤ finalCount * stride then
      if stride = 1 then none
      else
        let n := keepHead stride finalCount x.length
        some (x.take n ++ everyNth stride (x.drop n))
    else
      if finalCount = 0 then none
      else some (everyNth (x.length / finalCount + 1) x)

/-- Control-flow predicate of Sys.prune: the division by stride - 1 in the
first branch is executed exactly when the early return did not fire
(finalCount < n) and the first branch guard holds (n at most
finalCount * stride). -/
def pruneFirstBranchTaken (stride finalCount n : Nat) : Bool :=
  decide (finalCount < n) && decide (n ≤ finalCount * stride)

/-- State of class OperatingSystem: the scheduler's process list and the
environment value. -/
structure OperatingSystem (M H E : Type) where
  pop : List (Process M H)
  env : E

/-- One operator step: OperatingSystem.execute runs a round and then
updates the environment exactly once; OperatingSystem.prune delegates to
Sys.prune. -/
inductive Cmd where
  | round (fuel : Nat)
  | doPrune (stride finalCount : Nat)

/-- Apply one operator command to the operating system state. -/
def stepCmd [LinearOrder S] (code : List (CodeLine M H E)) (upd : E → E)
    (sc : M → S) : Cmd → OperatingSystem M H E → Option (OperatingSystem M H E)
  | .round fuel, st =>
    (sysExecute code st.env fuel st.pop).map fun p => ⟨p, upd st.env⟩
  | .doPrune stride finalCount, st =>
    (prune sc stride finalCount st.pop).map fun p => ⟨p, st.env⟩

/-- Apply a sequence of operator commands. -/
def runCmds [LinearOrder S] (code : List (CodeLine M H E)) (upd : E → E)
    (sc : M → S) : List Cmd → OperatingSystem M H E → Option (OperatingSystem M H E)
  | [], st => some st
  | c :: cs, st => (stepCmd code upd sc c st).bind (runCmds code upd sc cs)

/-- The observables of a state: population size, and score with resume
pointer for the process at each position. -/
def observe [LinearOrder S] (sc : M → S) (st : OperatingSystem M H E) :
    Nat × List (S × Nat) :=
  (st.pop.length, st.pop.map fun p => (sc p.model, p.resumePtr))

/-- Twelve processes with distinct scores 1 through 12: the population of
the pruning scenario. -/
def pop12 : List (Process Nat Nat) :=
  [⟨0, none, 1⟩, ⟨0, none, 2⟩, ⟨0, none, 3⟩, ⟨0, none, 4⟩, ⟨0, none, 5⟩,
   ⟨0, none, 6⟩, ⟨0, none, 7⟩, ⟨0, none, 8⟩, ⟨0, none, 9⟩, ⟨0, none, 10⟩,
   ⟨0, none, 11⟩, ⟨0, none, 12⟩]

/-- The six processes prune keeps in the scenario: descending ranks one,
two, three, six, nine and twelve, which are the scores 12, 11, 10, 7, 4
and 1. -/
def kept12 : List (Process Nat Nat) :=
  [⟨0, none, 12⟩, ⟨0, none, 11⟩, ⟨0, none, 10⟩, ⟨0, none, 7⟩,
   ⟨0, none, 4⟩, ⟨0, none, 1⟩]

/-- One-instruction demonstration program over Nat models and hints: add
one to the model and return the hints 1 and 2. -/
def codeDemo : List (CodeLine Nat Nat Unit) :=
  [fun m _ _ => (m + 1, [1, 2])]

/-- An instruction used to exercise the fork step: keep the model and
return the three hints 5, 7 and 9. -/
def insDemo : CodeLine Nat Nat Unit :=
  fun m _ _ => (m, [5, 7, 9])

/-! ## Theorems -/

/-- Taking at most the length of the first list of an append stays inside
that list. -/
theorem take_append_of_le {α : Type} (n : Nat) (l1 l2 : List α)
    (h : n ≤ l1.length) : (l1 ++ l2).take n = l1.take n := by
  induction l1 generalizing n with
  | nil =>
    have : n = 0 := by simpa using h
    simp [this]
  | cons a t ih =>
    cases n with
    | zero => rfl
    | succ n =>
      simp only [List.cons_append, List.take_succ_cons]
      rw [ih n (by simpa using h)]

/-- Dropping at most the length of the first list of an append keeps the
second list whole. -/
theorem drop_append_of_le {α : Type} (n : Nat) (l1 l2 : List α)
    (h : n ≤ l1.length) : (l1 ++ l2).drop n = l1.drop n ++ l2 := by
  induction l1 generalizing n with
  | nil =>
    have : n = 0 := by simpa using h
    simp [this]
  | cons a t ih =>
    cases n with
    | zero => rfl
    | succ n =>
      simp only [List.cons_append, List.drop_succ_cons]
      rw [ih n (by simpa using h)]

/-- Taking one past an updated position splits into the unchanged front
and the new element. -/
theorem take_succ_set {α : Type} (l : List α) (idx : Nat) (v : α)
    (h : idx < l.length) :
    (l.set idx v).take (idx + 1) = l.take idx ++ [v] := by
  induction l generalizing idx with
  | nil => simp at h
  | cons a t ih =>
    cases idx with
    | zero => simp
    | succ idx =>
      simp only [List.set_cons_succ, List.take_succ_cons]
      rw [ih idx (by simpa using h)]
      rfl

/-- The process list only ever grows by appended forks: running the lines
on a larger list appends the same forks after it. -/
theorem runLines_append {M H E : Type} (env : E) :
    ∀ (lines : List (Nat × CodeLine M H E)) (pop1 pop2 : List (Process M H))
      (m : M) (h : Option H),
      runLines env lines (pop1 ++ pop2) m h =
        (pop1 ++ (runLines env lines pop2 m h).1,
          (runLines env lines pop2 m h).2) := by
  intro lines
  induction lines with
  | nil => intro pop1 pop2 m h; rfl
  | cons lp rest ih =>
    intro pop1 pop2 m h
    obtain ⟨line, ins⟩ := lp
    simp only [runLines]
    rw [List.append_assoc]
    exact ih pop1 _ _ _

/-- The grown list returned by Process.execute is the input list followed
by the registered forks. -/
theorem processExecute_fst {M H E : Type} (code : List (CodeLine M H E))
    (env : E) (pop : List (Process M H)) (p : Process M H) :
    (processExecute code env pop p).1 =
      pop ++ (processExecute code env [] p).1 := by
  have h := runLines_append env
    (List.enumFrom p.resumePtr (code.drop p.resumePtr)) pop [] p.model p.hint
  simp only [List.append_nil] at h
  simp [processExecute, h]

/-- The finished process returned by Process.execute does not depend on
the surrounding list. -/
theorem processExecute_snd {M H E : Type} (code : List (CodeLine M H E))
    (env : E) (pop : List (Process M H)) (p : Process M H) :
    (processExecute code env pop p).2 = (processExecute code env [] p).2 := by
  have h := runLines_append env
    (List.enumFrom p.resumePtr (code.drop p.resumePtr)) pop [] p.model p.hint
  simp only [List.append_nil] at h
  simp [processExecute, h]

/-- Every process position the round loop has passed holds a finished
process with resume pointer 0, and the loop result consists only of such
positions. -/
theorem sysExecuteFrom_resume_zero {M H E : Type} (code : List (CodeLine M H E))
    (env : E) :
    ∀ (fuel : Nat) (pop : List (Process M H)) (idx : Nat)
      (out : List (Process M H)),
      (∀ p ∈ pop.take idx, p.resumePtr = 0) →
      sysExecuteFrom code env fuel pop idx = some out →
      ∀ p ∈ out, p.resumePtr = 0 := by
  intro fuel
  induction fuel with
  | zero =>
    intro pop idx out hinv heq p hp
    simp only [sysExecuteFrom] at heq
    split at heq
    case isTrue hle =>
      obtain rfl : pop = out := by injection heq
      apply hinv
      rw [List.take_of_length_le hle]
      exact hp
    case isFalse hle => cases heq
  | succ fuel ih =>
    intro pop idx out hinv heq p hp
    simp only [sysExecuteFrom] at heq
    split at heq
    case isTrue h =>
      rw [processExecute_fst, processExecute_snd, List.set_append_left _ _ h] at heq
      refine ih _ (idx + 1) out ?_ heq p hp
      intro q hq
      rw [take_append_of_le _ _ _ (by simpa using h)] at hq
      rw [take_succ_set pop idx _ h] at hq
      rcases List.mem_append.mp hq with hq1 | hq2
      · exact hinv q hq1
      · have hq3 : q = (processExecute code env [] pop[idx]).2 := by simpa using hq2
        rw [hq3]
        rfl
    case isFalse h =>
      obtain rfl : pop = out := by injection heq
      apply hinv
      rw [List.take_of_length_le (by omega)]
      exact hp

/-- The position-based loop of Sys.execute agrees with draining a
worklist: positions already passed form done, positions not yet reached
form pending, and forks appended during execution land in pending. -/
theorem sysExecuteFrom_eq_roundWork {M H E : Type} (code : List (CodeLine M H E))
    (env : E) :
    ∀ (fuel : Nat) (pop : List (Process M H)) (idx : Nat), idx ≤ pop.length →
      sysExecuteFrom code env fuel pop idx =
        roundWork code env fuel (pop.take idx) (pop.drop idx) := by
  intro fuel
  induction fuel with
  | zero =>
    intro pop idx hle
    simp only [sysExecuteFrom, roundWork]
    by_cases h : pop.length ≤ idx
    · have hidx : idx = pop.length := Nat.le_antisymm hle h
      subst hidx
      simp [List.drop_of_length_le h, List.take_of_length_le h]
    · rw [if_neg h, if_neg]
      simp only [List.isEmpty_iff, List.drop_eq_nil_iff]
      omega
  | succ fuel ih =>
    intro pop idx hle
    by_cases h : idx < pop.length
    · have hdrop : pop.drop idx = pop[idx] :: pop.drop (idx + 1) :=
        List.drop_eq_getElem_cons h
      simp only [sysExecuteFrom]
      rw [dif_pos h, hdrop]
      simp only [roundWork]
      rw [processExecute_fst, processExecute_snd, List.set_append_left _ _ h]
      rw [processExecute_fst, processExecute_snd]
      rw [ih _ (idx + 1) (by simp [List.length_append]; omega)]
      rw [take_append_of_le _ _ _ (by simpa using h),
        drop_append_of_le _ _ _ (by simpa using h)]
      rw [take_succ_set pop idx _ h]
      rw [List.drop_set]
      rw [if_pos (Nat.lt_succ_self idx)]
      rw [processExecute_fst code env (List.drop (idx + 1) pop),
        processExecute_snd code env (List.drop (idx + 1) pop)]
      simp
    · have hidx : idx = pop.length := Nat.le_antisymm hle (by omega)
      subst hidx
      simp only [sysExecuteFrom]
      rw [dif_neg h]
      rw [List.drop_of_length_le (Nat.le_refl _), List.take_of_length_le (Nat.le_refl _)]
      rfl

/-- Claim C2: one round, the position-based iteration of Sys.execute that
re-reads the current length at every step, equals draining a worklist
seeded with the population: each process, including every fork registered
during the very call, is taken exactly once, executed from its own resume
pointer to program completion (further forks joining the queue), and the
round returns only once the queue, that is every position up to the final
grown length, has been processed. -/
theorem c2_round_drains_worklist {M H E : Type} (code : List (CodeLine M H E))
    (env : E) (fuel : Nat) (pop : List (Process M H)) :
    sysExecute code env fuel pop = roundWork code env fuel [] pop := by
  have h := sysExecuteFrom_eq_roundWork code env fuel pop 0 (Nat.zero_le _)
  simpa [sysExecute] using h

/-- Claim C3: after a completed round every process in the population,
forks included, has resume pointer 0, ready to start the next round from
the top of the program. -/
theorem c3_round_reset {M H E : Type} (code : List (CodeLine M H E)) (env : E)
    (fuel : Nat) (pop out : List (Process M H))
    (heq : sysExecute code env fuel pop = some out) :
    ∀ p ∈ out, p.resumePtr = 0 := by
  refine sysExecuteFrom_resume_zero code env fuel pop 0 out ?_ heq
  simp

/-- Concrete round of the one-instruction demonstration program: it
completes within fuel 5, the fork is executed too, and the first process
of the result has resume pointer 0. -/
theorem c3_round_reset_witness :
    (⟨0, some 2, 1⟩ : Process Nat Nat).resumePtr = 0 :=
  c3_round_reset codeDemo () 5 [⟨0, none, 0⟩]
    [⟨0, some 2, 1⟩, ⟨0, some 1, 1⟩] (by decide) ⟨0, some 2, 1⟩ (by decide)

/-- Inserting into the sorted list is a permutation of consing. -/
theorem insertDesc_perm {M H S : Type} [LinearOrder S] (sc : M → S)
    (p : Process M H) (l : List (Process M H)) :
    insertDesc sc p l ~ p :: l := by
  induction l with
  | nil => exact List.Perm.refl _
  | cons q rest ih =>
    simp only [insertDesc]
    split
    · exact (ih.cons q).trans (List.Perm.swap p q rest)
    · exact List.Perm.refl _

/-- The stable descending sort permutes its input. -/
theorem sortDesc_perm {M H S : Type} [LinearOrder S] (sc : M → S)
    (l : List (Process M H)) : sortDesc sc l ~ l := by
  induction l with
  | nil => exact List.Perm.refl _
  | cons p rest ih =>
    exact (insertDesc_perm sc p (sortDesc sc rest)).trans (ih.cons p)

/-- Sorting preserves the length. -/
theorem sortDesc_length {M H S : Type} [LinearOrder S] (sc : M → S)
    (l : List (Process M H)) : (sortDesc sc l).length = l.length :=
  (sortDesc_perm sc l).length_eq

/-- Sorting preserves membership. -/
theorem mem_sortDesc {M H S : Type} [LinearOrder S] (sc : M → S)
    {l : List (Process M H)} {q : Process M H} :
    q ∈ sortDesc sc l ↔ q ∈ l :=
  (sortDesc_perm sc l).mem_iff

/-- Inserting keeps a descending list descending. -/
theorem insertDesc_pairwise {M H S : Type} [LinearOrder S] (sc : M → S)
    (p : Process M H) (l : List (Process M H))
    (hl : l.Pairwise fun a b => sc b.model ≤ sc a.model) :
    (insertDesc sc p l).Pairwise fun a b => sc b.model ≤ sc a.model := by
  induction l with
  | nil => simp [insertDesc]
  | cons q rest ih =>
    rcases List.pairwise_cons.mp hl with ⟨hq, hrest⟩
    simp only [insertDesc]
    split
    case isTrue hlt =>
      refine List.pairwise_cons.mpr ⟨?_, ih hrest⟩
      intro b hb
      rcases List.mem_cons.mp ((insertDesc_perm sc p rest).mem_iff.mp hb) with rfl | hbr
      · exact le_of_lt hlt
      · exact hq b hbr
    case isFalse hge =>
      refine List.pairwise_cons.mpr ⟨?_, hl⟩
      intro b hb
      rcases List.mem_cons.mp hb with rfl | hbr
      · exact not_lt.mp hge
      · exact le_trans (hq b hbr) (not_lt.mp hge)

/-- The sort output is descending in score. -/
theorem sortDesc_pairwise {M H S : Type} [LinearOrder S] (sc : M → S)
    (l : List (Process M H)) :
    (sortDesc sc l).Pairwise fun a b => sc b.model ≤ sc a.model := by
  induction l with
  | nil => simp [sortDesc]
  | cons p rest ih => exact insertDesc_pairwise sc p _ ih

/-- Stability of the insertion: restricted to any one score value the
insertion puts the new element, which stood earlier in the original
order, first, and otherwise changes nothing. -/
theorem insertDesc_filter {M H S : Type} [LinearOrder S] (sc : M → S)
    (p : Process M H) (l : List (Process M H)) (v : S) :
    (insertDesc sc p l).filter (fun q => decide (sc q.model = v)) =
      if sc p.model = v then
        p :: l.filter (fun q => decide (sc q.model = v))
      else l.filter (fun q => decide (sc q.model = v)) := by
  induction l with
  | nil =>
    by_cases hp : sc p.model = v <;> simp [insertDesc, List.filter, hp]
  | cons q rest ih =>
    simp only [insertDesc]
    split
    case isTrue hlt =>
      by_cases hq : sc q.model = v
      · have hp : ¬ sc p.model = v := by
          rw [← hq]
          exact ne_of_lt hlt
        simp [List.filter_cons, hq, hp, ih]
      · simp [List.filter_cons, hq, ih]
    case isFalse hge =>
      by_cases hp : sc p.model = v <;> simp [List.filter_cons, hp]

/-- Claim C9, stability half: the stable descending sort keeps the
processes of each fixed score value in their prior relative order. -/
theorem sortDesc_filter {M H S : Type} [LinearOrder S] (sc : M → S)
    (l : List (Process M H)) (v : S) :
    (sortDesc sc l).filter (fun q => decide (sc q.model = v)) =
      l.filter (fun q => decide (sc q.model = v)) := by
  induction l with
  | nil => rfl
  | cons p rest ih =>
    simp only [sortDesc]
    rw [insertDesc_filter]
    by_cases hp : sc p.model = v <;> simp [List.filter_cons, hp, ih]

/-- The stride slice helper selects a sublist. -/
theorem everyNthAux_sublist {α : Type} (s : Nat) :
    ∀ (l : List α) (k : Nat), everyNthAux s k l <+ l := by
  intro l
  induction l with
  | nil => intro k; simp [everyNthAux]
  | cons a rest ih =>
    intro k
    cases k with
    | zero => exact (ih (s - 1)).cons₂ a
    | succ k => exact (ih k).cons a

/-- The stride slice selects a sublist. -/
theorem everyNth_sublist {α : Type} (s : Nat) (l : List α) :
    everyNth s l <+ l :=
  everyNthAux_sublist s l 0

/-- Length of the stride slice helper: the elements surviving at counter k
are those at positions k, k + s, and so on. -/
theorem everyNthAux_length {α : Type} (s : Nat) (hs : 1 ≤ s) :
    ∀ (l : List α) (k : Nat), k ≤ s - 1 →
      (everyNthAux s k l).length = (l.length + (s - 1) - k) / s := by
  intro l
  induction l with
  | nil =>
    intro k hk
    simp only [everyNthAux, List.length_nil]
    exact (Nat.div_eq_of_lt (by omega)).symm
  | cons a rest ih =>
    intro k hk
    cases k with
    | zero =>
      simp only [everyNthAux, List.length_cons]
      rw [ih (s - 1) (Nat.le_refl _)]
      rw [(by omega : rest.length + (s - 1) - (s - 1) = rest.length)]
      rw [(by omega : rest.length + 1 + (s - 1) - 0 = rest.length + s)]
      rw [Nat.add_div_right _ (by omega)]
    | succ k =>
      simp only [everyNthAux, List.length_cons]
      rw [ih k (by omega)]
      congr 1
      omega

/-- Length of the Python stride slice: one element per started stride
block. -/
theorem everyNth_length {α : Type} (s : Nat) (hs : 1 ≤ s) (l : List α) :
    (everyNth s l).length = (l.length + (s - 1)) / s := by
  have h := everyNthAux_length s hs l 0 (Nat.zero_le _)
  simpa [everyNth] using h

/-- The stride slice starts with the head of the list. -/
theorem everyNth_head {α : Type} (s : Nat) (l : List α) :
    (everyNth s l).head? = l.head? := by
  cases l <;> rfl

/-- Unfolding of prune when the early return fires. -/
theorem prune_of_le {M H S : Type} [LinearOrder S] (sc : M → S)
    (stride finalCount : Nat) (pop : List (Process M H))
    (h1 : pop.length ≤ finalCount) :
    prune sc stride finalCount pop = some pop := by
  simp [prune, h1]

/-- Unfolding of prune in its first branch. -/
theorem prune_branch1 {M H S : Type} [LinearOrder S] (sc : M → S)
    (stride finalCount : Nat) (pop : List (Process M H)) (hs : stride ≠ 1)
    (h1 : finalCount < pop.length) (h2 : pop.length ≤ finalCount * stride) :
    prune sc stride finalCount pop =
      some ((sortDesc sc pop).take (keepHead stride finalCount pop.length) ++
        everyNth stride
          ((sortDesc sc pop).drop (keepHead stride finalCount pop.length))) := by
  have hx := sortDesc_length sc pop
  simp only [prune]
  rw [if_neg (by omega), if_pos (by rw [hx]; exact h2), if_neg hs, hx]

/-- Unfolding of prune in its second branch. -/
theorem prune_branch2 {M H S : Type} [LinearOrder S] (sc : M → S)
    (stride finalCount : Nat) (pop : List (Process M H))
    (h1 : finalCount < pop.length) (hf : finalCount ≠ 0)
    (h2 : ¬ pop.length ≤ finalCount * stride) :
    prune sc stride finalCount pop =
      some (everyNth (pop.length / finalCount + 1) (sortDesc sc pop)) := by
  have hx := sortDesc_length sc pop
  simp only [prune]
  rw [if_neg (by omega), if_neg (by rw [hx]; exact h2), if_neg hf, hx]

/-- Pure arithmetic of the first pruning branch, with the division and
remainder by stride - 1 abstracted: the kept count is the target or one
more. -/
theorem branch1_count_le (s f n q r : Nat) (hs : 2 ≤ s) (hn : f < n)
    (hqr : (s - 1) * q + r = n - f) (hrlt : r < s - 1) (hqf : q ≤ f) :
    f - q + (n - (f - q) + (s - 1)) / s ≤ f + 1 := by
  have hsq : (s - 1) * q + q = s * q := by
    calc (s - 1) * q + q = ((s - 1) + 1) * q := by ring
      _ = s * q := by rw [(by omega : s - 1 + 1 = s)]
  have ha : n - (f - q) + (s - 1) = s * q + (r + (s - 1)) := by omega
  rw [ha]
  by_cases hr0 : r = 0
  · rw [Nat.mul_add_div (by omega), Nat.div_eq_of_lt (by omega : r + (s - 1) < s)]
    omega
  · have hc : s * q + (r + (s - 1)) = s * (q + 1) + (r - 1) := by
      have : s * (q + 1) = s * q + s := by ring
      omega
    rw [hc, Nat.mul_add_div (by omega), Nat.div_eq_of_lt (by omega : r - 1 < s)]
    omega

/-- Pure arithmetic of the second pruning branch, with the division and
remainder by finalCount abstracted: the kept count stays within the
target. -/
theorem branch2_count_le (f n m e : Nat) (hdm : f * m + e = n)
    (hmod : e < f) : (n + m) / (m + 1) ≤ f + 1 := by
  have h4 : (n + m) / (m + 1) < f + 1 := by
    rw [Nat.div_lt_iff_lt_mul (by omega : 0 < m + 1)]
    have hexp : (f + 1) * (m + 1) = f * m + f + m + 1 := by ring
    omega
  omega

/-- The count of processes prune keeps is at most finalCount + 1. -/
theorem keptCount_le (stride finalCount n : Nat) (hs : 2 ≤ stride)
    (hf : 1 ≤ finalCount) (hn : finalCount < n) :
    keptCount stride finalCount n ≤ finalCount + 1 := by
  unfold keptCount keepHead
  by_cases h2 : n ≤ finalCount * stride
  · rw [if_pos h2]
    have hdm := Nat.div_add_mod (n - finalCount) (stride - 1)
    have hrlt : (n - finalCount) % (stride - 1) < stride - 1 :=
      Nat.mod_lt _ (by omega)
    have hqf : (n - finalCount) / (stride - 1) ≤ finalCount := by
      apply Nat.div_le_of_le_mul
      have hfs : (stride - 1) * finalCount + finalCount = stride * finalCount := by
        calc (stride - 1) * finalCount + finalCount
            = ((stride - 1) + 1) * finalCount := by ring
          _ = stride * finalCount := by rw [(by omega : stride - 1 + 1 = stride)]
      have hsf : stride * finalCount = finalCount * stride := Nat.mul_comm _ _
      omega
    exact branch1_count_le stride finalCount n _ _ hs hn hdm hrlt hqf
  · rw [if_neg h2]
    exact branch2_count_le finalCount n (n / finalCount) (n % finalCount)
      (Nat.div_add_mod n finalCount) (Nat.mod_lt _ (by omega))

/-- Shape of the prune result when pruning happens: its length is the
computed kept count, its first element is the head of the sorted list,
and it is a sublist of the sorted list. -/
theorem prune_some_shape {M H S : Type} [LinearOrder S] (sc : M → S)
    (stride finalCount : Nat) (pop out : List (Process M H)) (hs : 2 ≤ stride)
    (hf : 1 ≤ finalCount) (h1 : finalCount < pop.length)
    (heq : prune sc stride finalCount pop = some out) :
    out.length = keptCount stride finalCount pop.length ∧
      out.head? = (sortDesc sc pop).head? ∧ out <+ sortDesc sc pop := by
  have hx := sortDesc_length sc pop
  by_cases h2 : pop.length ≤ finalCount * stride
  · rw [prune_branch1 sc stride finalCount pop (by omega) h1 h2] at heq
    obtain rfl : _ = out := Option.some.inj heq
    have hn0f : keepHead stride finalCount pop.length ≤ finalCount :=
      Nat.sub_le _ _
    refine ⟨?_, ?_, ?_⟩
    · rw [List.length_append, List.length_take, everyNth_length stride (by omega),
        List.length_drop, hx, Nat.min_eq_left (by omega)]
      rw [keptCount, if_pos h2]
    · rcases hxc : sortDesc sc pop with _ | ⟨a, t⟩
      · rw [hxc] at hx
        simp at hx
        omega
      · rcases hkc : keepHead stride finalCount pop.length with _ | k
        · simp [everyNth_head]
        · simp [List.take_succ_cons, List.head?_append, Option.or]
    · have hsub : everyNth stride
          ((sortDesc sc pop).drop (keepHead stride finalCount pop.length)) <+
          (sortDesc sc pop).drop (keepHead stride finalCount pop.length) :=
        everyNth_sublist _ _
      have h := Sublist.append
        (List.Sublist.refl ((sortDesc sc pop).take (keepHead stride finalCount pop.length)))
        hsub
      rwa [List.take_append_drop] at h
  · rw [prune_branch2 sc stride finalCount pop h1 (by omega) h2] at heq
    obtain rfl : _ = out := Option.some.inj heq
    refine ⟨?_, everyNth_head _ _, everyNth_sublist _ _⟩
    rw [everyNth_length _ (Nat.le_add_left 1 _), hx, keptCount, if_neg h2]
    simp

/-- Claim C4: for stride at least 2 and finalCount at least 1, prune never
grows the population, leaves it entirely unchanged when its size is at
most finalCount, and otherwise keeps exactly the computed kept count of
processes, always including a process of maximum score. -/
theorem c4_prune_monotone {M H S : Type} [LinearOrder S] (sc : M → S)
    (stride finalCount : Nat) (pop : List (Process M H)) (hs : 2 ≤ stride)
    (hf : 1 ≤ finalCount) :
    ∃ out, prune sc stride finalCount pop = some out ∧
      out.length ≤ pop.length ∧
      (pop.length ≤ finalCount → out = pop) ∧
      (finalCount < pop.length →
        out.length = keptCount stride finalCount pop.length ∧
        ∃ pm, pm ∈ out ∧ ∀ q ∈ pop, sc q.model ≤ sc pm.model) := by
  by_cases h1 : pop.length ≤ finalCount
  · exact ⟨pop, prune_of_le sc stride finalCount pop h1, Nat.le_refl _,
      fun _ => rfl, fun hlt => absurd hlt (by omega)⟩
  · push_neg at h1
    obtain ⟨out, heq⟩ : ∃ out, prune sc stride finalCount pop = some out := by
      by_cases h2 : pop.length ≤ finalCount * stride
      · exact ⟨_, prune_branch1 sc stride finalCount pop (by omega) h1 h2⟩
      · exact ⟨_, prune_branch2 sc stride finalCount pop h1 (by omega) h2⟩
    obtain ⟨hlen, hhead, hsub⟩ :=
      prune_some_shape sc stride finalCount pop out hs hf h1 heq
    have hkle := keptCount_le stride finalCount pop.length hs hf h1
    refine ⟨out, heq, by omega, fun hle => absurd hle (by omega), fun _ => ⟨hlen, ?_⟩⟩
    rcases hxc : sortDesc sc pop with _ | ⟨pm, tail⟩
    · have hx := sortDesc_length sc pop
      rw [hxc] at hx
      simp at hx
      omega
    · refine ⟨pm, ?_, ?_⟩
      · apply List.mem_of_mem_head?
        rw [hhead, hxc]
        simp
      · intro q hq
        have hqx : q ∈ sortDesc sc pop := (mem_sortDesc sc).mpr hq
        rw [hxc] at hqx
        have hpw := sortDesc_pairwise sc pop
        rw [hxc] at hpw
        rcases List.mem_cons.mp hqx with rfl | hqt
        · exact le_refl _
        · exact (List.pairwise_cons.mp hpw).1 q hqt

/-- Concrete instance of the pruning contract: prune with stride 2 and
finalCount 1 succeeds on a two-process population. -/
theorem c4_prune_monotone_witness :
    (prune (fun m : Nat => m) 2 1
      [(⟨0, none, 1⟩ : Process Nat Nat), ⟨0, none, 2⟩]).isSome = true := by
  obtain ⟨out, heq, -⟩ :=
    c4_prune_monotone (fun m : Nat => m) 2 1
      [(⟨0, none, 1⟩ : Process Nat Nat), ⟨0, none, 2⟩] (by decide) (by decide)
  rw [heq]
  rfl

/-- Amendment of claim C6: prune can keep one process more than
finalCount; the population size after prune is at most finalCount + 1 for
stride at least 2 and finalCount at least 1. -/
theorem c6_prune_bound_amended {M H S : Type} [LinearOrder S] (sc : M → S)
    (stride finalCount : Nat) (pop out : List (Process M H)) (hs : 2 ≤ stride)
    (hf : 1 ≤ finalCount)
    (heq : prune sc stride finalCount pop = some out) :
    out.length ≤ finalCount + 1 := by
  by_cases h1 : pop.length ≤ finalCount
  · rw [prune_of_le sc stride finalCount pop h1] at heq
    obtain rfl : pop = out := Option.some.inj heq
    omega
  · push_neg at h1
    obtain ⟨hlen, -, -⟩ := prune_some_shape sc stride finalCount pop out hs hf h1 heq
    rw [hlen]
    exact keptCount_le stride finalCount pop.length hs hf h1

/-- Concrete instance of the amended bound: the scenario population of 12
keeps 6 processes, at most 5 + 1. -/
theorem c6_prune_bound_amended_witness : kept12.length ≤ 5 + 1 :=
  c6_prune_bound_amended (fun m : Nat => m) 3 5 pop12 kept12 (by decide)
    (by decide) (by decide)

/-- Amendment of claim C7: prune at stride 1 never executes the first
branch, so its division by stride - 1 never runs with a zero divisor;
whenever the population exceeds finalCount, the second branch runs and,
for finalCount at least 1, prune completes without any division by
zero. -/
theorem c7_stride_one_second_branch {M H S : Type} [LinearOrder S] (sc : M → S)
    (finalCount : Nat) (pop : List (Process M H)) (hf : 1 ≤ finalCount)
    (h1 : finalCount < pop.length) :
    prune sc 1 finalCount pop =
      some (everyNth (pop.length / finalCount + 1) (sortDesc sc pop)) :=
  prune_branch2 sc 1 finalCount pop h1 (by omega) (by omega)

/-- Concrete instance of the amendment: at stride 1 the scenario
population is pruned through the second branch. -/
theorem c7_stride_one_second_branch_witness :
    prune (fun m : Nat => m) 1 5 pop12 =
      some (everyNth (pop12.length / 5 + 1) (sortDesc (fun m : Nat => m) pop12)) :=
  c7_stride_one_second_branch (fun m : Nat => m) 5 pop12 (by decide) (by decide)

/-- Claim C10: whenever prune actually prunes (the population exceeded
finalCount), the kept processes are taken at increasing positions of the
descending sorted list in both branches, so the result is ordered by
non-increasing score. -/
theorem c10_prune_sorted {M H S : Type} [LinearOrder S] (sc : M → S)
    (stride finalCount : Nat) (pop out : List (Process M H)) (hs : 2 ≤ stride)
    (hf : 1 ≤ finalCount) (h1 : finalCount < pop.length)
    (heq : prune sc stride finalCount pop = some out) :
    out.Pairwise fun a b => sc b.model ≤ sc a.model := by
  obtain ⟨-, -, hsub⟩ := prune_some_shape sc stride finalCount pop out hs hf h1 heq
  exact (sortDesc_pairwise sc pop).sublist hsub

/-- Concrete instance of the order contract: the pruned scenario
population is non-increasing in score. -/
theorem c10_prune_sorted_witness :
    kept12.Pairwise fun a b => (fun m : Nat => m) b.model ≤ (fun m : Nat => m) a.model :=
  c10_prune_sorted (fun m : Nat => m) 3 5 pop12 kept12 (by decide) (by decide)
    (by decide) (by decide)

/-- Claim C5: on the population of 12 processes with distinct scores 1
through 12, prune with stride 3 and finalCount 5 takes the first branch
with a head count of 2 and keeps exactly the 6 processes ranked first,
second, third, sixth, ninth and twelfth by descending score, in that
order. -/
theorem c5_prune_scenario :
    prune (fun m : Nat => m) 3 5 pop12 = some kept12 ∧
      pop12.length ≤ 5 * 3 ∧ keepHead 3 5 pop12.length = 2 := by
  decide

/-- Claim C8 fails on the code: prune has no guard for degenerate
configurations; with finalCount 0 and a non-empty population the early
return does not fire, the first branch guard fails, and the second branch
executes the division of the length by finalCount, a division by zero
(rendered as none). -/
theorem c8_division_by_zero_at_final_count_zero :
    prune (fun m : Nat => m) 2 0 [(⟨0, none, 3⟩ : Process Nat Nat)] = none := by
  decide

/-- Counterexample to claim C6: pruning the 12-process population with
stride 3 and finalCount 5 keeps 6 processes, which exceeds finalCount. -/
theorem c6_counterexample :
    ((prune (fun m : Nat => m) 3 5 pop12).getD []).length = 6 ∧
      decide (((prune (fun m : Nat => m) 3 5 pop12).getD []).length ≤ 5) = false := by
  decide

/-- Counterexample to claim C7: there is no finalCount and no population
size for which the first branch of prune is taken at stride 1, because
the branch needs finalCount < n together with n ≤ finalCount * 1; hence
its division by stride - 1 is never evaluated with a zero divisor. -/
theorem c7_counterexample :
    (∃ finalCount n : Nat, pruneFirstBranchTaken 1 finalCount n = true) = False := by
  simp only [eq_iff_iff, iff_false]
  rintro ⟨finalCount, n, htaken⟩
  simp only [pruneFirstBranchTaken, Nat.mul_one, Bool.and_eq_true,
    decide_eq_true_eq] at htaken
  omega

/-- Claim C1: one instruction call inside Process.execute.  With k
returned hints, the pending hint becomes the last hint (none when k is 0,
stated through getLast?), the k - 1 fork children are appended to the
population before the next instruction runs (the first conjunct is the
step equation of runLines), the population grows from p to
p + max(k - 1, 0) (Nat subtraction), and child j carries resume pointer
line + 1, hint number j of the list in order, and the model as it stands
after the instruction. -/
theorem c1_fork_semantics {M H E : Type} (ins : CodeLine M H E) (env : E)
    (line : Nat) (rest : List (Nat × CodeLine M H E))
    (pop : List (Process M H)) (m : M) (h : Option H) :
    runLines env ((line, ins) :: rest) pop m h =
        runLines env rest (pop ++ forkChildren line (ins m h env).1 (ins m h env).2)
          (ins m h env).1 (ins m h env).2.getLast? ∧
      (pop ++ forkChildren line (ins m h env).1 (ins m h env).2).length =
        pop.length + ((ins m h env).2.length - 1) ∧
      (∀ j, j < (ins m h env).2.length - 1 →
        (forkChildren line (ins m h env).1 (ins m h env).2)[j]? =
          ((ins m h env).2[j]?).map fun hv => ⟨line + 1, some hv, (ins m h env).1⟩) ∧
      ((ins m h env).2 = [] → (ins m h env).2.getLast? = none ∧
        forkChildren line (ins m h env).1 (ins m h env).2 = []) ∧
      (∀ hne : (ins m h env).2 ≠ [],
        (ins m h env).2.getLast? = some ((ins m h env).2.getLast hne)) := by
  refine ⟨rfl, ?_, ?_, ?_, ?_⟩
  · simp [forkChildren]
  · intro j hj
    simp [forkChildren, List.getElem?_dropLast, hj]
    rw [List.getElem?_eq_getElem (by omega : j < (ins m h env).2.length)]
    rfl
  · intro he
    simp [forkChildren, he]
  · intro hne
    exact List.getLast?_eq_getLast _ hne

/-- Claim C9: the engine is a deterministic function of its inputs, so
two runs from equal initial states through the same command sequence show
identical observables, population size with per-position score and resume
pointer, at every step; and the descending sort used by prune is stable
(a permutation, sorted by non-increasing score, preserving the relative
order of equal-score processes), as required for this reproducibility. -/
theorem c9_two_runs_identical {M H E S : Type} [LinearOrder S]
    (code : List (CodeLine M H E)) (upd : E → E) (sc : M → S) :
    (∀ (cmds : List Cmd) (s t : OperatingSystem M H E), s = t →
      (runCmds code upd sc cmds s).map (observe sc) =
        (runCmds code upd sc cmds t).map (observe sc)) ∧
    (∀ (l : List (Process M H)) (v : S),
      (sortDesc sc l).filter (fun q => decide (sc q.model = v)) =
        l.filter (fun q => decide (sc q.model = v))) ∧
    (∀ l : List (Process M H), List.Perm (sortDesc sc l) l) ∧
    (∀ l : List (Process M H),
      (sortDesc sc l).Pairwise fun a b => sc b.model ≤ sc a.model) := by
  refine ⟨?_, sortDesc_filter sc, sortDesc_perm sc, sortDesc_pairwise sc⟩
  intro cmds s t hst
  rw [hst]

/-- Concrete instance of determinism: two identical runs of one round of
the demonstration program produce the same observables. -/
theorem c9_two_runs_identical_witness :
    (runCmds codeDemo id (fun m : Nat => m) [Cmd.round 5]
        (⟨[⟨0, none, 0⟩], ()⟩ : OperatingSystem Nat Nat Unit)).map
      (observe (fun m : Nat => m)) =
    (runCmds codeDemo id (fun m : Nat => m) [Cmd.round 5]
        (⟨[⟨0, none, 0⟩], ()⟩ : OperatingSystem Nat Nat Unit)).map
      (observe (fun m : Nat => m)) :=
  (c9_two_runs_identical codeDemo id (fun m : Nat => m)).1 [Cmd.round 5] _ _ rfl

/-- Concrete instance of the fork step: the instruction insDemo returns
the hints 5, 7 and 9 at line 2, and the first registered child carries
resume pointer 3 and hint 5. -/
theorem c1_fork_semantics_witness :
    (forkChildren 2 (insDemo 0 none ()).1 (insDemo 0 none ()).2)[0]? =
      ((insDemo 0 none ()).2[0]?).map
        (fun hv => (⟨2 + 1, some hv, (insDemo 0 none ()).1⟩ : Process Nat Nat)) :=
  (c1_fork_semantics insDemo () 2 [] [] 0 none).2.2.1 0 (by decide)

end ForkModel
